import Mathlib

/-!
Verification of the Ethereum derivation-path parser/formatter
(`src/ethereum/src/derivation_path.rs` of lightclient/wagyu).

Path text is embedded as `List Char`. The file defines:
* `ChildIndex`, its fallible constructors, token parser and renderer —
  the `wagyu_model::derivation_path` collaborator, which is not part of the
  repository snapshot under `src/`, so those are modelled from the spec;
* `EthereumDerivationPath` with `to_vec`, `from_vec`, `try_from`,
  `from_str` (via `from_strOpt`, whose `none` models the `unwrap` panic
  branch), and the `Display`/`Debug` renderers — translated from the
  Rust source.
-/

namespace Wagyu

/-- Modelled from the spec: the two-variant child index of
`wagyu_model::derivation_path::ChildIndex` (normal or hardened, each
carrying the unshifted logical index). -/
inductive ChildIndex : Type
  | normal (n : Nat)
  | hardened (n : Nat)
deriving DecidableEq, Repr

/-- Modelled from the spec: the error taxonomy of
`wagyu_model::derivation_path::DerivationPathError` used by this component.
`invalidDerivationPath` carries the full original input text. -/
inductive DerivationPathError : Type
  | invalidChildNumber (n : Nat)
  | invalidChildNumberFormat
  | invalidDerivationPath (path : List Char)
deriving DecidableEq, Repr

/-- Decidable equality for `Except`, so that result values can be compared
by `decide`. -/
instance exceptDecEq {ε α : Type} [DecidableEq ε] [DecidableEq α] :
    DecidableEq (Except ε α) := fun x y =>
  match x, y with
  | .ok a, .ok b =>
    if h : a = b then .isTrue (by rw [h])
    else .isFalse (by intro hh; cases hh; exact h rfl)
  | .error e, .error f =>
    if h : e = f then .isTrue (by rw [h])
    else .isFalse (by intro hh; cases hh; exact h rfl)
  | .ok _, .error _ => .isFalse (by intro hh; cases hh)
  | .error _, .ok _ => .isFalse (by intro hh; cases hh)

/-- Modelled from the spec: `ChildIndex::from_normal`, failing with
`InvalidChildNumber(n)` when `n` exceeds `2^31 - 1`. -/
def ChildIndex.from_normal (n : Nat) : Except DerivationPathError ChildIndex :=
  if n < 2 ^ 31 then .ok (.normal n) else .error (.invalidChildNumber n)

/-- Modelled from the spec: `ChildIndex::from_hardened`, failing with
`InvalidChildNumber(n)` when `n` exceeds `2^31 - 1`. -/
def ChildIndex.from_hardened (n : Nat) : Except DerivationPathError ChildIndex :=
  if n < 2 ^ 31 then .ok (.hardened n) else .error (.invalidChildNumber n)

/-- Numeric value of a decimal digit character. -/
def digitVal (c : Char) : Nat := c.toNat - 48

/-- Decimal digit character for a value below ten. -/
def digitChar (d : Nat) : Char := Char.ofNat (48 + d)

/-- Value of a digit string read as a base-10 numeral (left fold). -/
def digitsToNat (cs : List Char) : Nat :=
  cs.foldl (fun a c => 10 * a + digitVal c) 0

/-- Modelled from the spec: base-10 non-negative integer parsing of a token
body — succeeds exactly on a non-empty all-digit string. -/
def parseDecimal (cs : List Char) : Option Nat :=
  if cs ≠ [] ∧ cs.all Char.isDigit then some (digitsToNat cs) else none

/-- Fuelled decimal rendering; with fuel above `n` it produces the canonical
digits of `n`, most significant first. -/
def natToDigitsAux : Nat → Nat → List Char
  | 0, _ => []
  | fuel + 1, n =>
    if n < 10 then [digitChar n]
    else natToDigitsAux fuel (n / 10) ++ [digitChar (n % 10)]

/-- Canonical decimal digits of `n` (no leading zeros; `['0']` for zero). -/
def natToDigits (n : Nat) : List Char := natToDigitsAux (n + 1) n

/-- Whether a token carries a trailing hardening marker, apostrophe or
lowercase `h`. -/
def hasHardenedMarker (t : List Char) : Bool :=
  t.getLast? = some '\'' || t.getLast? = some 'h'

/-- The token with its optional trailing hardening marker stripped. -/
def strippedBody (t : List Char) : List Char :=
  if hasHardenedMarker t then t.dropLast else t

/-- Modelled from the spec: `FromStr for ChildIndex` — strip an optional
trailing `'` or `h` marker, parse the rest as a base-10 non-negative
integer (else `InvalidChildNumberFormat`), then build the hardened or
normal index through the range-checked constructor. -/
def ChildIndex.fromStr (t : List Char) : Except DerivationPathError ChildIndex :=
  match parseDecimal (strippedBody t) with
  | none => .error .invalidChildNumberFormat
  | some n =>
    if hasHardenedMarker t then ChildIndex.from_hardened n else ChildIndex.from_normal n

/-- Modelled from the spec: `Display for ChildIndex` — the decimal index
value, followed by an apostrophe iff the index is hardened (never the `h`
spelling). -/
def ChildIndex.display : ChildIndex → List Char
  | .normal n => natToDigits n
  | .hardened n => natToDigits n ++ ['\'']

/-- Splitting on the `/` separator, with the semantics of Rust's
`str::split("/")`: the empty string yields one empty token, and every
separator starts a new (possibly empty) token. -/
def splitSlash : List Char → List (List Char)
  | [] => [[]]
  | c :: cs =>
    if c = '/' then [] :: splitSlash cs
    else
      match splitSlash cs with
      | [] => [[c]]
      | t :: ts => (c :: t) :: ts

/-- `EthereumDerivationPath(Vec<ChildIndex>)`: an ordered sequence of child
indices. -/
structure EthereumDerivationPath : Type where
  path : List ChildIndex
deriving DecidableEq, Repr

/-- `DerivationPath::to_vec`: returns the child index vector. -/
def EthereumDerivationPath.to_vec (p : EthereumDerivationPath) :
    Except DerivationPathError (List ChildIndex) :=
  .ok p.path

/-- `DerivationPath::from_vec`: wraps a child index vector. -/
def EthereumDerivationPath.from_vec (path : List ChildIndex) :
    Except DerivationPathError EthereumDerivationPath :=
  .ok ⟨path⟩

/-- `TryFrom<Vec<ChildIndex>>`: delegates to `from_vec`. -/
def EthereumDerivationPath.try_from (path : List ChildIndex) :
    Except DerivationPathError EthereumDerivationPath :=
  EthereumDerivationPath.from_vec path

/-- `parts.map(str::parse).collect::<Result<Vec<ChildIndex>, _>>()`:
parse each token, stopping at the first failing token. -/
def collectIndices : List (List Char) → Except DerivationPathError (List ChildIndex)
  | [] => .ok []
  | t :: ts =>
    match ChildIndex.fromStr t with
    | .error e => .error e
    | .ok i =>
      match collectIndices ts with
      | .error e => .error e
      | .ok is => .ok (i :: is)

/-- `FromStr for EthereumDerivationPath`, with the `unwrap` on the first
split token made explicit: `none` models the panic branch, reachable only
if splitting produced no tokens at all. -/
def from_strOpt (path : List Char) :
    Option (Except DerivationPathError EthereumDerivationPath) :=
  match splitSlash path with
  | [] => none
  | root :: rest =>
    if root ≠ ['m'] then some (.error (.invalidDerivationPath path))
    else some ((collectIndices rest).map EthereumDerivationPath.mk)

/-- Total parser: `from_strOpt` with the (unreachable) panic branch
defaulted. -/
def from_str (path : List Char) : Except DerivationPathError EthereumDerivationPath :=
  (from_strOpt path).getD (.error (.invalidDerivationPath path))

/-- Canonical text of a path: `m`, then `/` followed by each index in
order. -/
def format (p : EthereumDerivationPath) : List Char :=
  'm' :: (p.path.map (fun index => '/' :: index.display)).flatten

/-- `Display for EthereumDerivationPath`: writes `m`, then `/` and the index
for each entry of `to_vec`; returns the formatting error if `to_vec`
fails. -/
def displayResult (p : EthereumDerivationPath) : Except Unit (List Char) :=
  match p.to_vec with
  | .ok path => .ok ('m' :: (path.map (fun index => '/' :: index.display)).flatten)
  | .error _ => .error ()

/-- `Debug for EthereumDerivationPath`: delegates to `Display`. -/
def debugResult (p : EthereumDerivationPath) : Except Unit (List Char) :=
  displayResult p

/-- The `ChildIndex` range invariant: the logical index fits in 31 bits. -/
def ChildIndex.valid : ChildIndex → Prop
  | .normal n => n < 2 ^ 31
  | .hardened n => n < 2 ^ 31

/-- Two tokens related by replacing a trailing apostrophe marker with the
`h` spelling (or left unchanged). -/
def markerEquiv (a b : List Char) : Prop :=
  a = b ∨ ∃ cs, a = cs ++ ['\''] ∧ b = cs ++ ['h']

/-- A token in canonical form: an optional trailing apostrophe (never `h`),
and a non-empty all-digit body with no leading zero. -/
def isCanonicalToken (t : List Char) : Bool :=
  let body := if t.getLast? = some '\'' then t.dropLast else t
  !body.isEmpty && body.all Char.isDigit && (!(body.head? == some '0') || body == ['0'])

/-- Left inverse of `splitSlash`: rejoin tokens with `/` separators. -/
def joinSlash : List (List Char) → List Char
  | [] => []
  | t :: ts => t ++ (ts.map (fun u => '/' :: u)).flatten

/-! ### Decimal digit characters -/

theorem digitChar_isDigit {d : Nat} (h : d < 10) : (digitChar d).isDigit = true := by
  interval_cases d <;> decide

theorem digitVal_digitChar {d : Nat} (h : d < 10) : digitVal (digitChar d) = d := by
  interval_cases d <;> decide

theorem digitChar_ne_slash {d : Nat} (h : d < 10) : digitChar d ≠ '/' := by
  interval_cases d <;> decide

theorem digitChar_ne_apos {d : Nat} (h : d < 10) : digitChar d ≠ '\'' := by
  interval_cases d <;> decide

theorem digitChar_ne_h {d : Nat} (h : d < 10) : digitChar d ≠ 'h' := by
  interval_cases d <;> decide

theorem isDigit_toNat {c : Char} (h : c.isDigit = true) :
    48 ≤ c.toNat ∧ c.toNat ≤ 57 := by
  simp only [Char.isDigit, Bool.and_eq_true, decide_eq_true_eq] at h
  obtain ⟨h1, h2⟩ := h
  constructor
  · exact UInt32.le_toNat_of_le (by decide) h1
  · exact UInt32.toNat_le_of_le (by decide) h2

theorem digitVal_lt_ten {c : Char} (h : c.isDigit = true) : digitVal c < 10 := by
  obtain ⟨h1, h2⟩ := isDigit_toNat h
  simp only [digitVal]
  omega

theorem digitChar_digitVal {c : Char} (h : c.isDigit = true) :
    digitChar (digitVal c) = c := by
  obtain ⟨h1, h2⟩ := isDigit_toNat h
  have harg : 48 + digitVal c = c.toNat := by simp only [digitVal]; omega
  simp only [digitChar, harg, Char.ofNat_toNat]

/-! ### Canonical decimal rendering -/

theorem natToDigitsAux_of_lt (n : Nat) : ∀ f, n < f → natToDigitsAux f n = natToDigits n := by
  induction n using Nat.strong_induction_on with
  | _ n ih =>
    intro f hf
    match f with
    | f + 1 =>
      by_cases h10 : n < 10
      · simp [natToDigitsAux, natToDigits, h10]
      · have hdiv : n / 10 < n := Nat.div_lt_self (by omega) (by omega)
        have h1 : natToDigitsAux f (n / 10) = natToDigits (n / 10) := ih _ hdiv f (by omega)
        have h2 : natToDigitsAux n (n / 10) = natToDigits (n / 10) := ih _ hdiv n hdiv
        show natToDigitsAux (f + 1) n = natToDigitsAux (n + 1) n
        simp only [natToDigitsAux, h10, if_false, h1, h2]

theorem natToDigits_lt {n : Nat} (h : n < 10) : natToDigits n = [digitChar n] := by
  simp [natToDigits, natToDigitsAux, h]

theorem natToDigits_ge {n : Nat} (h : ¬ n < 10) :
    natToDigits n = natToDigits (n / 10) ++ [digitChar (n % 10)] := by
  have hdiv : n / 10 < n := Nat.div_lt_self (by omega) (by omega)
  have hstep : natToDigitsAux (n + 1) n = natToDigitsAux n (n / 10) ++ [digitChar (n % 10)] := by
    simp only [natToDigitsAux, h, if_false]
  calc natToDigits n = natToDigitsAux n (n / 10) ++ [digitChar (n % 10)] := hstep
    _ = natToDigits (n / 10) ++ [digitChar (n % 10)] := by
        rw [natToDigitsAux_of_lt _ n hdiv]

theorem natToDigits_ne_nil (n : Nat) : natToDigits n ≠ [] := by
  by_cases h : n < 10
  · rw [natToDigits_lt h]; simp
  · rw [natToDigits_ge h]; simp

theorem mem_natToDigits (n : Nat) : ∀ c ∈ natToDigits n, ∃ d, d < 10 ∧ c = digitChar d := by
  induction n using Nat.strong_induction_on with
  | _ n ih =>
    by_cases h : n < 10
    · rw [natToDigits_lt h]
      intro c hc
      simp only [List.mem_singleton] at hc
      exact ⟨n, h, hc⟩
    · rw [natToDigits_ge h]
      intro c hc
      rw [List.mem_append] at hc
      rcases hc with hc | hc
      · exact ih _ (Nat.div_lt_self (by omega) (by omega)) c hc
      · simp only [List.mem_singleton] at hc
        exact ⟨n % 10, Nat.mod_lt _ (by omega), hc⟩

theorem digitsToNat_concat (cs : List Char) (c : Char) :
    digitsToNat (cs ++ [c]) = 10 * digitsToNat cs + digitVal c := by
  simp [digitsToNat, List.foldl_append]

theorem digitsToNat_natToDigits (n : Nat) : digitsToNat (natToDigits n) = n := by
  induction n using Nat.strong_induction_on with
  | _ n ih =>
    by_cases h : n < 10
    · rw [natToDigits_lt h]
      simp [digitsToNat, digitVal_digitChar h]
    · rw [natToDigits_ge h, digitsToNat_concat,
        ih _ (Nat.div_lt_self (by omega) (by omega)),
        digitVal_digitChar (Nat.mod_lt _ (by omega))]
      omega

theorem foldl_digits_ge (cs : List Char) :
    ∀ a : Nat, a ≤ cs.foldl (fun x c => 10 * x + digitVal c) a := by
  induction cs with
  | nil => intro a; simp
  | cons c cs ih =>
    intro a
    simp only [List.foldl_cons]
    calc a ≤ 10 * a + digitVal c := by omega
      _ ≤ _ := ih _

theorem digitsToNat_head_pos {c : Char} {cs : List Char} (h : 1 ≤ digitVal c) :
    1 ≤ digitsToNat (c :: cs) := by
  have hge := foldl_digits_ge cs (10 * 0 + digitVal c)
  simp only [digitsToNat, List.foldl_cons]
  omega

theorem natToDigits_digitsToNat :
    ∀ cs : List Char, cs ≠ [] → (∀ c ∈ cs, c.isDigit = true) →
      (cs.head? = some '0' → cs = ['0']) → natToDigits (digitsToNat cs) = cs := by
  intro cs
  induction cs using List.reverseRecOn with
  | nil => intro h; exact absurd rfl h
  | append_singleton ds d ih =>
    intro _ hdig hlead
    have hd : d.isDigit = true := hdig d (by simp)
    have hdv : digitVal d < 10 := digitVal_lt_ten hd
    cases ds with
    | nil =>
      simp only [List.nil_append]
      rw [show digitsToNat [d] = digitVal d from by simp [digitsToNat]]
      rw [natToDigits_lt hdv, digitChar_digitVal hd]
    | cons e es =>
      have he : e.isDigit = true := hdig e (by simp)
      have hne : e ≠ '0' := by
        intro he0
        have hsingle := hlead (by simp [he0])
        have hlen := congrArg List.length hsingle
        simp only [List.length_append, List.length_cons, List.length_nil,
          List.length_singleton] at hlen
        omega
      have hev : 1 ≤ digitVal e := by
        obtain ⟨h1, h2⟩ := isDigit_toNat he
        have h48 : e.toNat ≠ 48 := by
          intro h48
          apply hne
          have hh := digitChar_digitVal he
          rw [show digitVal e = 0 from by simp [digitVal, h48]] at hh
          rw [← hh]; decide
        simp only [digitVal]; omega
      have hds_pos : 1 ≤ digitsToNat (e :: es) := digitsToNat_head_pos hev
      have hcat : digitsToNat ((e :: es) ++ [d]) = 10 * digitsToNat (e :: es) + digitVal d :=
        digitsToNat_concat _ _
      have hge : ¬ digitsToNat ((e :: es) ++ [d]) < 10 := by omega
      rw [natToDigits_ge hge]
      have hdiv : digitsToNat ((e :: es) ++ [d]) / 10 = digitsToNat (e :: es) := by omega
      have hmod : digitsToNat ((e :: es) ++ [d]) % 10 = digitVal d := by omega
      rw [hdiv, hmod, digitChar_digitVal hd]
      rw [ih (by simp) (fun c hc => hdig c (List.mem_append_left _ hc)) (fun h0 => by
        simp only [List.head?_cons, Option.some.injEq] at h0
        exact absurd h0 hne)]

/-! ### Splitting and joining on the separator -/

theorem splitSlash_ne_nil (cs : List Char) : splitSlash cs ≠ [] := by
  induction cs with
  | nil => simp [splitSlash]
  | cons c cs ih =>
    simp only [splitSlash]
    split
    · simp
    · split
      · simp
      · simp

theorem splitSlash_no_slash {t : List Char} (h : '/' ∉ t) : splitSlash t = [t] := by
  induction t with
  | nil => rfl
  | cons c cs ih =>
    have hc : ¬ c = '/' := fun hh => h (by simp [hh])
    have hcs : '/' ∉ cs := fun hh => h (List.mem_cons_of_mem _ hh)
    simp [splitSlash, hc, ih hcs]

theorem splitSlash_cons_slash (rest : List Char) :
    splitSlash ('/' :: rest) = [] :: splitSlash rest := by
  simp [splitSlash]

theorem splitSlash_append_slash {t : List Char} (rest : List Char) (h : '/' ∉ t) :
    splitSlash (t ++ '/' :: rest) = t :: splitSlash rest := by
  induction t with
  | nil => simp [splitSlash]
  | cons c cs ih =>
    have hc : ¬ c = '/' := fun hh => h (by simp [hh])
    have hcs : '/' ∉ cs := fun hh => h (List.mem_cons_of_mem _ hh)
    simp [List.cons_append, splitSlash, hc, ih hcs]

theorem joinSlash_splitSlash (s : List Char) : joinSlash (splitSlash s) = s := by
  induction s with
  | nil => rfl
  | cons c cs ih =>
    by_cases hc : c = '/'
    · subst hc
      rw [splitSlash_cons_slash]
      cases hsp : splitSlash cs with
      | nil => exact absurd hsp (splitSlash_ne_nil cs)
      | cons t ts =>
        rw [hsp] at ih
        simp only [joinSlash, List.map_cons, List.flatten_cons, List.nil_append] at ih ⊢
        simp [ih]
    · cases hsp : splitSlash cs with
      | nil => exact absurd hsp (splitSlash_ne_nil cs)
      | cons t ts =>
        rw [hsp] at ih
        have hstep : splitSlash (c :: cs) = (c :: t) :: ts := by
          simp [splitSlash, hc, hsp]
        rw [hstep]
        simp only [joinSlash] at ih ⊢
        simp [List.cons_append, ih]

theorem splitSlash_join_tokens (ts : List (List Char)) :
    ∀ t, '/' ∉ t → (∀ u ∈ ts, '/' ∉ u) →
      splitSlash (t ++ (ts.map (fun u => '/' :: u)).flatten) = t :: ts := by
  induction ts with
  | nil =>
    intro t ht _
    simp [splitSlash_no_slash ht]
  | cons u us ih =>
    intro t ht hus
    have hshape : t ++ ((u :: us).map (fun w => '/' :: w)).flatten
        = t ++ '/' :: (u ++ (us.map (fun w => '/' :: w)).flatten) := by
      simp
    rw [hshape, splitSlash_append_slash _ ht,
      ih u (hus u (by simp)) (fun w hw => hus w (by simp [hw]))]

/-! ### Token-level parsing and rendering -/

theorem from_normal_ok {n : Nat} {i : ChildIndex}
    (h : ChildIndex.from_normal n = .ok i) : i = .normal n ∧ n < 2 ^ 31 := by
  by_cases hn : n < 2 ^ 31
  · rw [ChildIndex.from_normal, if_pos hn] at h
    cases h
    exact ⟨rfl, hn⟩
  · rw [ChildIndex.from_normal, if_neg hn] at h
    cases h

theorem from_hardened_ok {n : Nat} {i : ChildIndex}
    (h : ChildIndex.from_hardened n = .ok i) : i = .hardened n ∧ n < 2 ^ 31 := by
  by_cases hn : n < 2 ^ 31
  · rw [ChildIndex.from_hardened, if_pos hn] at h
    cases h
    exact ⟨rfl, hn⟩
  · rw [ChildIndex.from_hardened, if_neg hn] at h
    cases h

theorem fromStr_ok_valid {t : List Char} {i : ChildIndex}
    (h : ChildIndex.fromStr t = .ok i) : i.valid := by
  unfold ChildIndex.fromStr at h
  split at h
  · simp at h
  · split at h
    · obtain ⟨hi, hn⟩ := from_hardened_ok h
      subst hi
      exact hn
    · obtain ⟨hi, hn⟩ := from_normal_ok h
      subst hi
      exact hn

theorem mem_display_digit_or_apos {i : ChildIndex} {c : Char} (hc : c ∈ i.display) :
    (∃ d, d < 10 ∧ c = digitChar d) ∨ c = '\'' := by
  cases i with
  | normal n => exact Or.inl (mem_natToDigits n c hc)
  | hardened n =>
    simp only [ChildIndex.display, List.mem_append, List.mem_singleton] at hc
    rcases hc with hc | hc
    · exact Or.inl (mem_natToDigits n c hc)
    · exact Or.inr hc

theorem display_no_slash {i : ChildIndex} : '/' ∉ i.display := by
  intro hmem
  rcases mem_display_digit_or_apos hmem with ⟨d, hd, hc⟩ | hc
  · exact digitChar_ne_slash hd hc.symm
  · exact absurd hc (by decide)

theorem display_no_h {i : ChildIndex} : 'h' ∉ i.display := by
  intro hmem
  rcases mem_display_digit_or_apos hmem with ⟨d, hd, hc⟩ | hc
  · exact digitChar_ne_h hd hc.symm
  · exact absurd hc (by decide)

theorem natToDigits_concat_shape (n : Nat) :
    ∃ ds d, d < 10 ∧ natToDigits n = ds ++ [digitChar d] := by
  by_cases h : n < 10
  · exact ⟨[], n, h, by rw [natToDigits_lt h]; rfl⟩
  · exact ⟨natToDigits (n / 10), n % 10, Nat.mod_lt _ (by omega), natToDigits_ge h⟩

theorem hasHardenedMarker_natToDigits (n : Nat) :
    hasHardenedMarker (natToDigits n) = false := by
  obtain ⟨ds, d, hd, heq⟩ := natToDigits_concat_shape n
  rw [heq]
  simp [hasHardenedMarker, List.getLast?_concat, digitChar_ne_apos hd, digitChar_ne_h hd]

theorem all_isDigit_natToDigits (n : Nat) : (natToDigits n).all Char.isDigit = true := by
  rw [List.all_eq_true]
  intro c hc
  obtain ⟨d, hd, rfl⟩ := mem_natToDigits n c hc
  exact digitChar_isDigit hd

theorem parseDecimal_natToDigits (n : Nat) : parseDecimal (natToDigits n) = some n := by
  rw [parseDecimal, if_pos ⟨natToDigits_ne_nil n, all_isDigit_natToDigits n⟩,
    digitsToNat_natToDigits]

theorem fromStr_display {i : ChildIndex} (h : i.valid) :
    ChildIndex.fromStr i.display = .ok i := by
  cases i with
  | normal n =>
    have hmark : hasHardenedMarker (natToDigits n) = false := hasHardenedMarker_natToDigits n
    have hbody : strippedBody (natToDigits n) = natToDigits n := by
      simp [strippedBody, hmark]
    show ChildIndex.fromStr (natToDigits n) = .ok (.normal n)
    unfold ChildIndex.fromStr
    rw [hbody, parseDecimal_natToDigits, hmark]
    have hn : n < 2 ^ 31 := h
    simp only [Bool.false_eq_true, if_false, ChildIndex.from_normal]
    rw [if_pos hn]
  | hardened n =>
    have hmark : hasHardenedMarker (natToDigits n ++ ['\'']) = true := by
      simp [hasHardenedMarker, List.getLast?_concat]
    have hbody : strippedBody (natToDigits n ++ ['\'']) = natToDigits n := by
      simp [strippedBody, hmark, List.dropLast_concat]
    show ChildIndex.fromStr (natToDigits n ++ ['\'']) = .ok (.hardened n)
    unfold ChildIndex.fromStr
    rw [hbody, parseDecimal_natToDigits, hmark]
    have hn : n < 2 ^ 31 := h
    simp only [if_true, ChildIndex.from_hardened]
    rw [if_pos hn]

/-! ### Path-level lemmas -/

theorem from_str_eq (path root : List Char) (rest : List (List Char))
    (hsp : splitSlash path = root :: rest) :
    from_str path = if root ≠ ['m'] then .error (.invalidDerivationPath path)
      else (collectIndices rest).map EthereumDerivationPath.mk := by
  unfold from_str from_strOpt
  rw [hsp]
  by_cases hroot : root ≠ ['m'] <;> simp [hroot]

theorem collectIndices_ok_valid :
    ∀ (ts : List (List Char)) (v : List ChildIndex),
      collectIndices ts = .ok v → ∀ i ∈ v, i.valid := by
  intro ts
  induction ts with
  | nil =>
    intro v h i hi
    simp only [collectIndices, Except.ok.injEq] at h
    subst h
    simp at hi
  | cons t ts ih =>
    intro v h i hi
    cases hft : ChildIndex.fromStr t with
    | error e => simp [collectIndices, hft] at h
    | ok j =>
      cases hct : collectIndices ts with
      | error e => simp [collectIndices, hft, hct] at h
      | ok js =>
        simp only [collectIndices, hft, hct, Except.ok.injEq] at h
        subst h
        rcases List.mem_cons.mp hi with rfl | hmem
        · exact fromStr_ok_valid hft
        · exact ih js hct i hmem

theorem collectIndices_map_display :
    ∀ (v : List ChildIndex), (∀ i ∈ v, i.valid) →
      collectIndices (v.map ChildIndex.display) = .ok v := by
  intro v
  induction v with
  | nil => intro _; rfl
  | cons i v ih =>
    intro h
    have hi : i.valid := h i (by simp)
    simp only [List.map_cons, collectIndices, fromStr_display hi,
      ih (fun j hj => h j (by simp [hj]))]

theorem collectIndices_first_error :
    ∀ (pre : List (List Char)) (bad : List Char) (post : List (List Char))
      (e : DerivationPathError),
      (∀ t ∈ pre, ∃ i, ChildIndex.fromStr t = .ok i) →
      ChildIndex.fromStr bad = .error e →
      collectIndices (pre ++ bad :: post) = .error e := by
  intro pre
  induction pre with
  | nil =>
    intro bad post e _ hbad
    simp [collectIndices, hbad]
  | cons t pre ih =>
    intro bad post e hpre hbad
    obtain ⟨i, hi⟩ := hpre t (by simp)
    simp [collectIndices, hi,
      ih bad post e (fun u hu => hpre u (by simp [hu])) hbad]

theorem splitSlash_format (p : EthereumDerivationPath) :
    splitSlash (format p) = ['m'] :: p.path.map ChildIndex.display := by
  have hns : ∀ u ∈ p.path.map ChildIndex.display, '/' ∉ u := by
    intro u hu
    rw [List.mem_map] at hu
    obtain ⟨i, _, rfl⟩ := hu
    exact display_no_slash
  have hshape : format p
      = ['m'] ++ ((p.path.map ChildIndex.display).map (fun u => '/' :: u)).flatten := by
    simp only [format, List.map_map]
    rfl
  rw [hshape, splitSlash_join_tokens _ _ (by decide) hns]

theorem from_str_format {p : EthereumDerivationPath} (h : ∀ i ∈ p.path, i.valid) :
    from_str (format p) = .ok p := by
  rw [from_str_eq _ _ _ (splitSlash_format p), if_neg (fun hx => hx rfl),
    collectIndices_map_display p.path h]
  rfl

theorem from_str_ok_valid {s : List Char} {p : EthereumDerivationPath}
    (h : from_str s = .ok p) : ∀ i ∈ p.path, i.valid := by
  cases hsp : splitSlash s with
  | nil => exact absurd hsp (splitSlash_ne_nil s)
  | cons root rest =>
    rw [from_str_eq s root rest hsp] at h
    by_cases hroot : root ≠ ['m']
    · rw [if_pos hroot] at h
      simp at h
    · rw [if_neg hroot] at h
      cases hc : collectIndices rest with
      | error e => rw [hc] at h; simp [Except.map] at h
      | ok v =>
        rw [hc] at h
        simp only [Except.map, Except.ok.injEq] at h
        subst h
        exact collectIndices_ok_valid rest v hc

/-! ### Canonical tokens and marker equivalence -/

theorem dropLast_concat_of_getLast? {t : List Char} {c : Char}
    (h : t.getLast? = some c) : t.dropLast ++ [c] = t :=
  List.dropLast_append_getLast? c (by rw [Option.mem_def]; exact h)

theorem fromStr_canonical_display {t : List Char} {i : ChildIndex}
    (hok : ChildIndex.fromStr t = .ok i) (hc : isCanonicalToken t = true) :
    i.display = t := by
  unfold isCanonicalToken at hc
  by_cases hlast : t.getLast? = some '\''
  · rw [if_pos hlast] at hc
    simp only [Bool.and_eq_true, Bool.or_eq_true, Bool.not_eq_true',
      List.isEmpty_eq_false, beq_iff_eq] at hc
    obtain ⟨⟨hne, hdig⟩, hlead⟩ := hc
    have hcat := dropLast_concat_of_getLast? hlast
    have hmark : hasHardenedMarker t = true := by
      simp [hasHardenedMarker, hlast]
    have hbody : strippedBody t = t.dropLast := by
      simp [strippedBody, hmark]
    have hparse : parseDecimal t.dropLast = some (digitsToNat t.dropLast) := by
      rw [parseDecimal, if_pos ⟨hne, hdig⟩]
    unfold ChildIndex.fromStr at hok
    rw [hbody, hparse] at hok
    simp only [hmark, if_true] at hok
    obtain ⟨hi, hlt⟩ := from_hardened_ok hok
    subst hi
    show natToDigits (digitsToNat t.dropLast) ++ ['\''] = t
    rw [natToDigits_digitsToNat t.dropLast hne (List.all_eq_true.mp hdig)
      (fun h0 => by
        rcases hlead with hl | hl
        · simp only [Bool.not_eq_true, beq_eq_false_iff_ne] at hl
          exact absurd h0 hl
        · exact hl),
      hcat]
  · rw [if_neg hlast] at hc
    simp only [Bool.and_eq_true, Bool.or_eq_true, Bool.not_eq_true',
      List.isEmpty_eq_false, beq_iff_eq] at hc
    obtain ⟨⟨hne, hdig⟩, hlead⟩ := hc
    have hmark : hasHardenedMarker t = false := by
      cases hh : t.getLast? with
      | none => simp [hasHardenedMarker, hh]
      | some c =>
        have hcmem : c ∈ t := List.mem_of_mem_getLast? (by rw [Option.mem_def]; exact hh)
        have hcdig : c.isDigit = true := List.all_eq_true.mp hdig c hcmem
        have hc1 : c ≠ '\'' := fun hce => hlast (by rw [hh, hce])
        have hc2 : c ≠ 'h' := by
          intro hce
          obtain ⟨hlo, hhi⟩ := isDigit_toNat hcdig
          rw [hce] at hhi
          exact absurd hhi (by decide)
        simp [hasHardenedMarker, hh, hc1, hc2]
    have hbody : strippedBody t = t := by
      simp [strippedBody, hmark]
    have hparse : parseDecimal t = some (digitsToNat t) := by
      rw [parseDecimal, if_pos ⟨hne, hdig⟩]
    unfold ChildIndex.fromStr at hok
    rw [hbody, hparse] at hok
    simp only [hmark, Bool.false_eq_true, if_false] at hok
    obtain ⟨hi, hlt⟩ := from_normal_ok hok
    subst hi
    show natToDigits (digitsToNat t) = t
    exact natToDigits_digitsToNat t hne (List.all_eq_true.mp hdig)
      (fun h0 => by
        rcases hlead with hl | hl
        · simp only [Bool.not_eq_true, beq_eq_false_iff_ne] at hl
          exact absurd h0 hl
        · exact hl)

theorem collectIndices_canonical_display :
    ∀ (ts : List (List Char)) (v : List ChildIndex),
      collectIndices ts = .ok v → (∀ t ∈ ts, isCanonicalToken t = true) →
      v.map ChildIndex.display = ts := by
  intro ts
  induction ts with
  | nil =>
    intro v h _
    simp only [collectIndices, Except.ok.injEq] at h
    subst h
    rfl
  | cons t ts ih =>
    intro v h hcan
    cases hft : ChildIndex.fromStr t with
    | error e => simp [collectIndices, hft] at h
    | ok j =>
      cases hct : collectIndices ts with
      | error e => simp [collectIndices, hft, hct] at h
      | ok js =>
        simp only [collectIndices, hft, hct, Except.ok.injEq] at h
        subst h
        simp only [List.map_cons,
          fromStr_canonical_display hft (hcan t (by simp)),
          ih js hct (fun u hu => hcan u (by simp [hu]))]

theorem fromStr_markerEquiv {a b : List Char} (h : markerEquiv a b) :
    ChildIndex.fromStr a = ChildIndex.fromStr b := by
  rcases h with rfl | ⟨cs, rfl, rfl⟩
  · rfl
  · have ha : hasHardenedMarker (cs ++ ['\'']) = true := by
      simp [hasHardenedMarker, List.getLast?_concat]
    have hb : hasHardenedMarker (cs ++ ['h']) = true := by
      simp [hasHardenedMarker, List.getLast?_concat]
    have sa : strippedBody (cs ++ ['\'']) = cs := by
      simp [strippedBody, ha]
    have sb : strippedBody (cs ++ ['h']) = cs := by
      simp [strippedBody, hb]
    unfold ChildIndex.fromStr
    rw [sa, sb]
    simp only [ha, hb, if_true]

theorem collectIndices_markerEquiv {r1 r2 : List (List Char)}
    (h : List.Forall₂ markerEquiv r1 r2) :
    collectIndices r1 = collectIndices r2 := by
  induction h with
  | nil => rfl
  | cons hab hrest ih => simp only [collectIndices, fromStr_markerEquiv hab, ih]

theorem format_no_h (p : EthereumDerivationPath) : 'h' ∉ format p := by
  intro hmem
  simp only [format, List.mem_cons, List.mem_flatten, List.mem_map] at hmem
  rcases hmem with h | ⟨l, ⟨i, hi, rfl⟩, hl⟩
  · exact absurd h (by decide)
  · rcases List.mem_cons.mp hl with h | h
    · exact absurd h (by decide)
    · exact display_no_h h

theorem from_strOpt_eq (path : List Char) :
    from_strOpt path = some (from_str path) := by
  unfold from_str from_strOpt
  cases hsp : splitSlash path with
  | nil => exact absurd hsp (splitSlash_ne_nil path)
  | cons root rest =>
    by_cases hroot : root ≠ ['m'] <;> simp [hroot]

/-! ### Claim theorems -/

/-- C1, counterexample: `"m/007"` parses successfully using no `h` marker,
but formatting the parsed path yields `"m/7"`, not the original text — the
round-trip law fails on non-canonical (leading-zero) numerals. -/
theorem C1_roundtrip_counterexample :
    from_str "m/007".data = .ok ⟨[.normal 7]⟩ ∧
    format ⟨[.normal 7]⟩ = "m/7".data ∧
    format ⟨[.normal 7]⟩ ≠ "m/007".data := by
  refine ⟨rfl, rfl, ?_⟩
  decide

/-- C1 (amended): if a valid path text uses only the apostrophe marker and
every numeric token is written canonically (no leading zeros), then
`format (parse text) = text`; and for every text that parses successfully,
`parse (format (parse text)) = parse text`. -/
theorem C1_roundtrip :
    (∀ (text : List Char) (ts : List (List Char)) (p : EthereumDerivationPath),
      splitSlash text = ['m'] :: ts →
      (∀ t ∈ ts, isCanonicalToken t = true) →
      from_str text = .ok p →
      format p = text) ∧
    (∀ (text : List Char) (p : EthereumDerivationPath),
      from_str text = .ok p → from_str (format p) = .ok p) := by
  constructor
  · intro text ts p hsp hcan hok
    rw [from_str_eq _ _ _ hsp, if_neg (fun hx => hx rfl)] at hok
    cases hc : collectIndices ts with
    | error e => rw [hc] at hok; simp [Except.map] at hok
    | ok v =>
      rw [hc] at hok
      simp only [Except.map, Except.ok.injEq] at hok
      subst hok
      have hmap : v.map ChildIndex.display = ts :=
        collectIndices_canonical_display ts v hc hcan
      have htext := joinSlash_splitSlash text
      rw [hsp] at htext
      rw [← htext, ← hmap]
      simp only [joinSlash, format, List.map_map]
      rfl
  · intro text p hok
    exact from_str_format (from_str_ok_valid hok)

/-- C1 witness: at `"m/0'/1"`, formatting the parsed path recovers the
text, and re-parsing the formatted text recovers the parsed path. -/
theorem C1_roundtrip_witness :
    format ⟨[.hardened 0, .normal 1]⟩ = "m/0'/1".data ∧
    from_str (format ⟨[.hardened 0, .normal 1]⟩) = .ok ⟨[.hardened 0, .normal 1]⟩ := by
  constructor
  · exact C1_roundtrip.1 "m/0'/1".data [['0', '\''], ['1']] ⟨[.hardened 0, .normal 1]⟩
      rfl (by decide) rfl
  · exact C1_roundtrip.2 "m/0'/1".data ⟨[.hardened 0, .normal 1]⟩ rfl

/-- C2: `to_vec` and `from_vec` always succeed, `try_from` delegates to
`from_vec`, and the two conversions compose to the identity in both
directions, preserving element order (e.g. `"m/0'/1/2'"` parses to
hardened 0, normal 1, hardened 2 in that order). -/
theorem C2_vec_roundtrip :
    (∀ p : EthereumDerivationPath, p.to_vec = .ok p.path) ∧
    (∀ s : List ChildIndex, EthereumDerivationPath.from_vec s = .ok ⟨s⟩) ∧
    (∀ s : List ChildIndex,
      (EthereumDerivationPath.from_vec s).bind EthereumDerivationPath.to_vec = .ok s) ∧
    (∀ p : EthereumDerivationPath,
      p.to_vec.bind EthereumDerivationPath.from_vec = .ok p) ∧
    (∀ s : List ChildIndex,
      EthereumDerivationPath.try_from s = EthereumDerivationPath.from_vec s) ∧
    from_str "m/0'/1/2'".data = .ok ⟨[.hardened 0, .normal 1, .hardened 2]⟩ :=
  ⟨fun _ => rfl, fun _ => rfl, fun _ => rfl, fun _ => rfl, fun _ => rfl, rfl⟩

/-- C3: whenever the first `/`-separated token of the input is not exactly
`m`, parsing fails with `InvalidDerivationPath` carrying the entire
original input. -/
theorem C3_nonroot_rejected :
    ∀ (path root : List Char) (rest : List (List Char)),
      splitSlash path = root :: rest → root ≠ ['m'] →
      from_str path = .error (.invalidDerivationPath path) := by
  intro path root rest hsp hroot
  rw [from_str_eq path root rest hsp, if_pos hroot]

/-- C3 witness: `"n"` is rejected with the full original string. -/
theorem C3_nonroot_rejected_witness :
    from_str "n".data = .error (.invalidDerivationPath "n".data) :=
  C3_nonroot_rejected "n".data ['n'] [] rfl (by decide)

/-- C4: `"m/2147483647"` parses to the single normal index 2147483647,
while `"m/2147483648"` fails with `InvalidChildNumber(2147483648)`. -/
theorem C4_range_boundary :
    from_str "m/2147483647".data = .ok ⟨[.normal 2147483647]⟩ ∧
    from_str "m/2147483648".data = .error (.invalidChildNumber 2147483648) :=
  ⟨rfl, rfl⟩

/-- C5: replacing the apostrophe marker by `h` in any subset of the tokens
after an `m` root leaves the parse result unchanged, and the formatter
never emits the `h` spelling (hardened indices render with the
apostrophe). -/
theorem C5_marker_equivalence :
    (∀ (s1 s2 : List Char) (r1 r2 : List (List Char)),
      splitSlash s1 = ['m'] :: r1 → splitSlash s2 = ['m'] :: r2 →
      List.Forall₂ markerEquiv r1 r2 → from_str s1 = from_str s2) ∧
    (∀ p : EthereumDerivationPath, 'h' ∉ format p) ∧
    (∀ n : Nat, (ChildIndex.hardened n).display = natToDigits n ++ ['\'']) := by
  refine ⟨?_, format_no_h, fun n => rfl⟩
  intro s1 s2 r1 r2 h1 h2 heq
  rw [from_str_eq s1 _ _ h1, from_str_eq s2 _ _ h2,
    if_neg (fun hx => hx rfl), if_neg (fun hx => hx rfl),
    collectIndices_markerEquiv heq]

/-- C5 witness: `"m/1'"` and `"m/1h"` parse identically, and the format of
a hardened path contains no `h`. -/
theorem C5_marker_equivalence_witness :
    from_str "m/1'".data = from_str "m/1h".data ∧ 'h' ∉ format ⟨[.hardened 1]⟩ := by
  constructor
  · exact C5_marker_equivalence.1 "m/1'".data "m/1h".data [['1', '\'']] [['1', 'h']]
      rfl rfl (List.Forall₂.cons (Or.inr ⟨['1'], rfl, rfl⟩) List.Forall₂.nil)
  · exact C5_marker_equivalence.2.1 ⟨[.hardened 1]⟩

/-- C6: when every token before `bad` parses and `bad` fails with error
`e`, the whole parse returns exactly `e` — the first failure wins and
later tokens (`post`) cannot influence the result. -/
theorem C6_first_error :
    ∀ (path : List Char) (pre : List (List Char)) (bad : List Char)
      (post : List (List Char)) (e : DerivationPathError),
      splitSlash path = ['m'] :: (pre ++ bad :: post) →
      (∀ t ∈ pre, ∃ i, ChildIndex.fromStr t = .ok i) →
      ChildIndex.fromStr bad = .error e →
      from_str path = .error e := by
  intro path pre bad post e hsp hpre hbad
  rw [from_str_eq _ _ _ hsp, if_neg (fun hx => hx rfl),
    collectIndices_first_error pre bad post e hpre hbad]
  rfl

/-- C6 witness: in `"m/1/x/5"` the first failing token `x` determines the
error even though a valid token follows it. -/
theorem C6_first_error_witness :
    from_str "m/1/x/5".data = .error .invalidChildNumberFormat := by
  apply C6_first_error "m/1/x/5".data [['1']] ['x'] [['5']]
    DerivationPathError.invalidChildNumberFormat
  · rfl
  · intro t ht
    rw [List.mem_singleton] at ht
    subst ht
    exact ⟨.normal 1, rfl⟩
  · rfl

/-- C7, counterexample: `"m/2147483648/0x"` contains the malformed token
`0x`, yet parsing fails with `InvalidChildNumber(2147483648)` (the earlier
range failure), not `InvalidChildNumberFormat` — the claim's unconditional
form is false. -/
theorem C7_malformed_counterexample :
    parseDecimal (strippedBody ['0', 'x']) = none ∧
    from_str "m/2147483648/0x".data = .error (.invalidChildNumber 2147483648) ∧
    from_str "m/2147483648/0x".data ≠ .error .invalidChildNumberFormat := by
  refine ⟨rfl, rfl, ?_⟩
  decide

/-- C7 (amended): if the first failing token is format-invalid (every
token before it parses), the parse fails with `InvalidChildNumberFormat`;
in particular `"m/0x"` and `"m//0"` fail with
`InvalidChildNumberFormat`. -/
theorem C7_malformed_rejected :
    (∀ (path : List Char) (pre : List (List Char)) (bad : List Char)
      (post : List (List Char)),
      splitSlash path = ['m'] :: (pre ++ bad :: post) →
      (∀ t ∈ pre, ∃ i, ChildIndex.fromStr t = .ok i) →
      parseDecimal (strippedBody bad) = none →
      from_str path = .error .invalidChildNumberFormat) ∧
    from_str "m/0x".data = .error .invalidChildNumberFormat ∧
    from_str "m//0".data = .error .invalidChildNumberFormat := by
  refine ⟨?_, rfl, rfl⟩
  intro path pre bad post hsp hpre hbadfmt
  have hbad : ChildIndex.fromStr bad = .error .invalidChildNumberFormat := by
    unfold ChildIndex.fromStr
    rw [hbadfmt]
  rw [from_str_eq _ _ _ hsp, if_neg (fun hx => hx rfl),
    collectIndices_first_error pre bad post _ hpre hbad]
  rfl

/-- C7 witness: the general part applied to `"m/0x"`, whose only token has
an invalid body. -/
theorem C7_malformed_rejected_witness :
    from_str "m/0x".data = .error .invalidChildNumberFormat :=
  C7_malformed_rejected.1 "m/0x".data [] ['0', 'x'] [] rfl
    (fun t ht => absurd ht (by simp)) rfl

/-- C8: `"m"` parses to the empty path, and the empty path formats (via
the `Display` implementation) to exactly `"m"`. -/
theorem C8_empty_path :
    from_str "m".data = .ok ⟨[]⟩ ∧ displayResult ⟨[]⟩ = .ok "m".data ∧
    format ⟨[]⟩ = "m".data :=
  ⟨rfl, rfl, rfl⟩

/-- C9: splitting always yields at least one token, so the `unwrap` in
`from_str` never panics: the optional-result parser returns `some` (an
`Ok` path or a typed error) on every input. -/
theorem C9_parser_total :
    ∀ path : List Char, from_strOpt path = some (from_str path) :=
  from_strOpt_eq

/-- C10: the `Display` implementation never takes its error branch — it
returns the canonical text for every path — and `Debug` renders
identically to `Display`. -/
theorem C10_display_total :
    ∀ p : EthereumDerivationPath,
      displayResult p = .ok (format p) ∧ debugResult p = displayResult p :=
  fun _ => ⟨rfl, rfl⟩

end Wagyu
